import Mathlib

/-!
Verification of the codon-usage analysis / DNA synthesis program.

The repository ships `src/main.py`, a thin CLI that dispatches to a core
module (`frequency_table`) providing `count_codons`, `analyze_codon_counts`,
`protein_to_dna_preferred`, `protein_to_dna_weighted` and
`generate_multiple_variants`.  The CLI dispatch is embedded below directly
from `main.py`; the core functions, whose bodies are not part of the
repository snapshot, are modelled from the specification (their doc comments
say so explicitly).
-/

namespace CodonOpt

/-- Modelled from the spec: the `GeneticCodeTable` (§3), the standard genetic
code as a fixed 64-entry mapping from a 3-letter nucleotide codon over
{A,C,G,T} to a one-letter amino-acid symbol, with `*` as the stop symbol.
The listing is ordered by amino-acid symbol and then by codon, the row
ordering §4.3 prescribes for the frequency table. -/
def geneticCodeTable : List (String × Char) :=
  [("TAA", '*'), ("TAG", '*'), ("TGA", '*'),
   ("GCA", 'A'), ("GCC", 'A'), ("GCG", 'A'), ("GCT", 'A'),
   ("TGC", 'C'), ("TGT", 'C'),
   ("GAC", 'D'), ("GAT", 'D'),
   ("GAA", 'E'), ("GAG", 'E'),
   ("TTC", 'F'), ("TTT", 'F'),
   ("GGA", 'G'), ("GGC", 'G'), ("GGG", 'G'), ("GGT", 'G'),
   ("CAC", 'H'), ("CAT", 'H'),
   ("ATA", 'I'), ("ATC", 'I'), ("ATT", 'I'),
   ("AAA", 'K'), ("AAG", 'K'),
   ("CTA", 'L'), ("CTC", 'L'), ("CTG", 'L'), ("CTT", 'L'), ("TTA", 'L'), ("TTG", 'L'),
   ("ATG", 'M'),
   ("AAC", 'N'), ("AAT", 'N'),
   ("CCA", 'P'), ("CCC", 'P'), ("CCG", 'P'), ("CCT", 'P'),
   ("CAA", 'Q'), ("CAG", 'Q'),
   ("AGA", 'R'), ("AGG", 'R'), ("CGA", 'R'), ("CGC", 'R'), ("CGG", 'R'), ("CGT", 'R'),
   ("AGC", 'S'), ("AGT", 'S'), ("TCA", 'S'), ("TCC", 'S'), ("TCG", 'S'), ("TCT", 'S'),
   ("ACA", 'T'), ("ACC", 'T'), ("ACG", 'T'), ("ACT", 'T'),
   ("GTA", 'V'), ("GTC", 'V'), ("GTG", 'V'), ("GTT", 'V'),
   ("TGG", 'W'),
   ("TAC", 'Y'), ("TAT", 'Y')]

/-- Modelled from the spec: `GeneticCode.translate` (§4.1) — total over the 64
valid codons, `none` (the `UnknownCodon` outcome) on anything else. -/
def translate (codon : String) : Option Char :=
  geneticCodeTable.lookup codon

/-- The 64 valid codons in the table's (amino acid, codon) order. -/
def sortedCodons : List String := geneticCodeTable.map Prod.fst

/-- Modelled from the spec: the codon segmentation of §4.2 — partition a raw
nucleotide character list into non-overlapping consecutive 3-base codons
starting at offset 0, silently discarding the 0–2 trailing bases that do not
complete a codon. -/
def chunks3 : List Char → List String
  | c1 :: c2 :: c3 :: rest => String.mk [c1, c2, c3] :: chunks3 rest
  | _ => []

/-- Modelled from the spec: the stream of valid codons a counting pass over
the given raw sequences encounters — each sequence segmented by `chunks3`,
codons failing genetic-code lookup skipped without failing the pass. -/
def codonsOf (seqs : List String) : List String :=
  seqs.flatMap (fun s => (chunks3 s.data).filter (fun c => (translate c).isSome))

/-- Modelled from the spec: `count_codons` (§4.2, named as in `main.py`) —
the counting pass over raw nucleotide strings, returning the codon tally and
the amino-acid tally it increments alongside each counted codon.  The file
reading done by the Python function is an excluded adapter (§1); the core
consumes a collection of raw nucleotide strings. -/
def count_codons (seqs : List String) : (String → ℕ) × (Char → ℕ) :=
  (fun c => (codonsOf seqs).count c,
   fun a => ((codonsOf seqs).filter (fun c => translate c == some a)).length)

/-- A `FrequencyRow` (§3): amino acid, codon, count and relative frequency. -/
structure FrequencyRow where
  amino_acid : Char
  codon : String
  count : ℕ
  frequency : ℚ
deriving DecidableEq, Repr

/-- Row emitted by the analyzer for one codon, if any: codons with zero count
produce no row, others carry `frequency = count / AminoAcidCount[amino acid]`. -/
def rowOf (cnt : String → ℕ) (aa : Char → ℕ) (c : String) : Option FrequencyRow :=
  match translate c with
  | some b => if cnt c ≠ 0 then some ⟨b, c, cnt c, mkRat (cnt c) (aa b)⟩ else none
  | none => none

/-- Modelled from the spec: `analyze_codon_counts` (§4.3, named as in
`main.py`) — for every codon with a nonzero count emit a row with
`frequency = count / AminoAcidCount[translate(codon)]`, rows ordered by amino
acid then codon. -/
def analyze_codon_counts (cnt : String → ℕ) (aa : Char → ℕ) : List FrequencyRow :=
  sortedCodons.filterMap (rowOf cnt aa)

/-- The rows of a frequency table for one amino acid. -/
def rowsFor (table : List FrequencyRow) (a : Char) : List FrequencyRow :=
  table.filter (fun r => r.amino_acid == a)

/-- The derived amino-acid total of §3: the sum of the codon counts of the
codons translating to the given amino acid. -/
def derivedAA (cnt : String → ℕ) (a : Char) : ℕ :=
  ((sortedCodons.filter (fun c => translate c == some a)).map cnt).sum

/-- The error kind `MissingAminoAcidFrequency` of §7, naming the offending
amino-acid symbol and its position in the protein. -/
inductive SynthError where
  | missingAminoAcidFrequency (symbol : Char) (position : ℕ)
deriving DecidableEq, Repr

/-- Modelled from the spec: the preferred-policy codon choice (§4.4) — the
codon of maximum frequency among the amino acid's rows, ties broken towards
the lexicographically smallest codon (lexicographic order on the character
list); `none` when there are no rows.  `strictlyBetter r b` is the strict
preference order: `r` beats `b` on higher frequency, or on equal frequency
and a lexicographically smaller codon; `preferStep` is one comparison step
of the running-maximum scan. -/
def strictlyBetter (r b : FrequencyRow) : Prop :=
  b.frequency < r.frequency ∨
    (r.frequency = b.frequency ∧ r.codon.data < b.codon.data)

instance (r b : FrequencyRow) : Decidable (strictlyBetter r b) := by
  unfold strictlyBetter
  infer_instance

/-- One comparison step of the running-maximum scan of the preferred policy. -/
def preferStep (best : Option FrequencyRow) (r : FrequencyRow) : Option FrequencyRow :=
  match best with
  | none => some r
  | some b => if strictlyBetter r b then some r else some b

/-- The preferred-policy selection: running maximum of `preferStep` over the
amino acid's rows. -/
def pickPreferred (rows : List FrequencyRow) : Option FrequencyRow :=
  rows.foldl preferStep none

/-- Residue-by-residue loop of the preferred synthesis, carrying the current
residue position for error reporting. -/
def synthGoPreferred (table : List FrequencyRow) : List Char → ℕ → Except SynthError String
  | [], _ => .ok ""
  | a :: rest, i =>
      match pickPreferred (rowsFor table a) with
      | none => .error (.missingAminoAcidFrequency a i)
      | some r => (synthGoPreferred table rest (i + 1)).map (fun s => r.codon ++ s)

/-- Modelled from the spec: `protein_to_dna_preferred` (`synthesizePreferred`,
§4.4, named as in `main.py`) — deterministic argmax selection per residue,
failing with `MissingAminoAcidFrequency` on a residue with no rows. -/
def protein_to_dna_preferred (protein : String) (table : List FrequencyRow) :
    Except SynthError String :=
  synthGoPreferred table protein.data 0

/-- Modelled from the spec: the explicit randomness source of §4.4/§5.  The
spec fixes no generator algorithm, so a standard linear congruential generator
on a 31-bit state stands in; `rngNext` returns a uniform rational in [0,1)
and the advanced state. -/
def rngNext (g : ℕ) : ℚ × ℕ :=
  let g2 := (1103515245 * g + 12345) % 2147483648
  (mkRat g2 2147483648, g2)

/-- Difference of two rationals, written out on numerators and denominators
(the library's subtraction is equal but deliberately non-evaluating). -/
def ratSub (a b : ℚ) : ℚ :=
  mkRat (a.num * b.den - b.num * a.den) (a.den * b.den)

/-- Modelled from the spec: the weighted-policy categorical draw (§4.4) —
walk the amino acid's rows accumulating frequency until the uniform draw `u`
falls inside a row's band (inverse-CDF sampling, so each codon is selected
with probability equal to its frequency); `none` when there are no rows. -/
def pickWeighted (u : ℚ) : List FrequencyRow → Option FrequencyRow
  | [] => none
  | [r] => some r
  | r :: r2 :: rest =>
      if u < r.frequency then some r else pickWeighted (ratSub u r.frequency) (r2 :: rest)

/-- Residue-by-residue loop of the weighted synthesis, threading the
randomness state and carrying the residue position for error reporting. -/
def synthGoWeighted (table : List FrequencyRow) :
    List Char → ℕ → ℕ → Except SynthError (String × ℕ)
  | [], _, g => .ok ("", g)
  | a :: rest, i, g =>
      let ug := rngNext g
      match pickWeighted ug.1 (rowsFor table a) with
      | none => .error (.missingAminoAcidFrequency a i)
      | some r =>
          (synthGoWeighted table rest (i + 1) ug.2).map (fun sg => (r.codon ++ sg.1, sg.2))

/-- Modelled from the spec: `protein_to_dna_weighted` (`synthesizeWeighted`,
§4.4, named as in `main.py`) — one weighted draw per residue.  The randomness
state is threaded explicitly (the spec's requirement); it returns the advanced
state alongside the sequence so callers can continue the stream. -/
def protein_to_dna_weighted (protein : String) (table : List FrequencyRow) (g : ℕ) :
    Except SynthError (String × ℕ) :=
  synthGoWeighted table protein.data 0 g

/-- Loop of the multi-variant generation: `n` successive weighted syntheses,
each continuing from the randomness state the previous one advanced to. -/
def variantsGo (protein : String) (table : List FrequencyRow) :
    ℕ → ℕ → Except SynthError (List String)
  | 0, _ => .ok []
  | n + 1, g =>
      match protein_to_dna_weighted protein table g with
      | .error e => .error e
      | .ok sg => (variantsGo protein table n sg.2).map (fun vs => sg.1 :: vs)

/-- Modelled from the spec: `generate_multiple_variants` (`synthesizeVariants`,
§4.4, named as in `main.py`) — `n` independent weighted draws over the whole
protein, each variant using freshly advanced randomness from the same stream. -/
def generate_multiple_variants (protein : String) (table : List FrequencyRow)
    (n : ℕ) (g : ℕ) : Except SynthError (List String) :=
  variantsGo protein table n g

/-- The `--method` choices of the CLI (`main.py`, `create_parser`). -/
inductive GenMethod where
  | preferred
  | weighted
deriving DecidableEq, Repr

/-- The `generate` branch of `main` (`main.py` lines 116–133): with
`--method preferred` call `protein_to_dna_preferred`; otherwise, with
`num_variants > 1`, call `generate_multiple_variants`, else a single
`protein_to_dna_weighted`.  `numVariants` is the CLI's integer argument.
`main.py` passes no randomness source to the weighted calls — they consume
the ambient global random state, which this shallow embedding makes explicit
as the extra argument `g`. -/
def mainGenerate (protein : String) (table : List FrequencyRow)
    (method : GenMethod) (numVariants : ℤ) (g : ℕ) :
    Except SynthError (List String) :=
  match method with
  | .preferred => (protein_to_dna_preferred protein table).map (fun s => [s])
  | .weighted =>
      if numVariants > 1 then
        generate_multiple_variants protein table numVariants.toNat g
      else
        (protein_to_dna_weighted protein table g).map (fun sg => [sg.1])

/-- The frequency table obtained by analyzing the single input sequence
`"ATGGCTATGGCCATG"` of the spec's concrete scenario (§8). -/
def sampleTable : List FrequencyRow :=
  [⟨'A', "GCC", 1, mkRat 1 2⟩, ⟨'A', "GCT", 1, mkRat 1 2⟩, ⟨'M', "ATG", 3, mkRat 3 3⟩]

/-- `r` is at least as preferable as `x`: no lower frequency, and on equal
frequency no lexicographically larger codon. -/
def notWorse (r x : FrequencyRow) : Prop :=
  x.frequency ≤ r.frequency ∧
    (x.frequency = r.frequency → r.codon.data ≤ x.codon.data)

/-- Modelled from the spec: persisting the frequency table (§6) — the
adapter writes one record per row with the columns
`amino_acid, codon, count, frequency`, in table order.  The CSV writer
itself (`create_csv_and_visualization` / `pandas`) is an excluded adapter. -/
def persistTable (t : List FrequencyRow) : List (Char × String × ℕ × ℚ) :=
  t.map (fun r => (r.amino_acid, r.codon, r.count, r.frequency))

/-- Modelled from the spec: loading a persisted frequency table (§6) — each
record's four columns are read back into a `FrequencyRow`, in file order. -/
def loadTable (p : List (Char × String × ℕ × ℚ)) : List FrequencyRow :=
  p.map (fun q => ⟨q.1, q.2.1, q.2.2.1, q.2.2.2⟩)


theorem loadTable_persistTable (t : List FrequencyRow) :
    loadTable (persistTable t) = t := by
  induction t with
  | nil => rfl
  | cons r t ih =>
      show (⟨r.amino_acid, r.codon, r.count, r.frequency⟩ : FrequencyRow) ::
          loadTable (persistTable t) = r :: t
      rw [ih]

theorem notWorse_refl (r : FrequencyRow) : notWorse r r :=
  ⟨le_refl _, fun _ => le_refl _⟩

theorem notWorse_trans {q b x : FrequencyRow} (h1 : notWorse q b) (h2 : notWorse b x) :
    notWorse q x := by
  obtain ⟨hf1, hc1⟩ := h1
  obtain ⟨hf2, hc2⟩ := h2
  refine ⟨le_trans hf2 hf1, fun hx => ?_⟩
  have hbq : b.frequency = q.frequency := by
    apply le_antisymm hf1
    calc q.frequency = x.frequency := hx.symm
    _ ≤ b.frequency := hf2
  exact le_trans (hc1 hbq) (hc2 (by rw [hx, hbq]))

theorem notWorse_absorb {q r b : FrequencyRow} (h1 : notWorse q r)
    (h2 : strictlyBetter r b) : notWorse q b := by
  obtain ⟨hf1, hc1⟩ := h1
  rcases h2 with hf | ⟨hfe, hcl⟩
  · exact ⟨le_of_lt (lt_of_lt_of_le hf hf1), fun hx => absurd hx.symm
      (ne_of_gt (lt_of_lt_of_le hf hf1))⟩
  · refine ⟨hfe ▸ hf1, fun hx => ?_⟩
    have hrq : r.frequency = q.frequency := by rw [hfe, hx]
    exact le_trans (hc1 hrq) (le_of_lt hcl)

theorem notWorse_of_not_strictlyBetter {r b : FrequencyRow}
    (h : ¬ strictlyBetter r b) : notWorse b r := by
  unfold strictlyBetter at h
  push_neg at h
  exact ⟨h.1, h.2⟩

theorem foldl_preferStep_spec :
    ∀ (rows : List FrequencyRow) (b : FrequencyRow),
      ∃ r, rows.foldl preferStep (some b) = some r ∧ (r = b ∨ r ∈ rows) ∧
        notWorse r b ∧ ∀ x ∈ rows, notWorse r x
  | [], b => ⟨b, rfl, .inl rfl, notWorse_refl b, by simp⟩
  | row :: rest, b => by
      have hstep : preferStep (some b) row =
          if strictlyBetter row b then some row else some b := rfl
      by_cases hb : strictlyBetter row b
      · rw [List.foldl_cons, hstep, if_pos hb]
        obtain ⟨r, heq, hmem, hnwr, hall⟩ := foldl_preferStep_spec rest row
        refine ⟨r, heq, .inr ?_, notWorse_absorb hnwr hb, ?_⟩
        · rcases hmem with h | h
          · exact h ▸ List.mem_cons_self row rest
          · exact List.mem_cons_of_mem row h
        · intro x hx
          rcases List.mem_cons.mp hx with h | h
          · exact h ▸ hnwr
          · exact hall x h
      · rw [List.foldl_cons, hstep, if_neg hb]
        obtain ⟨r, heq, hmem, hnwb, hall⟩ := foldl_preferStep_spec rest b
        have hbrow : notWorse b row := notWorse_of_not_strictlyBetter hb
        refine ⟨r, heq, ?_, hnwb, ?_⟩
        · rcases hmem with h | h
          · exact .inl h
          · exact .inr (List.mem_cons_of_mem row h)
        · intro x hx
          rcases List.mem_cons.mp hx with h | h
          · exact h ▸ notWorse_trans hnwb hbrow
          · exact hall x h

theorem pickPreferred_spec {rows : List FrequencyRow} {r : FrequencyRow}
    (h : pickPreferred rows = some r) :
    r ∈ rows ∧ ∀ x ∈ rows, notWorse r x := by
  cases rows with
  | nil => simp [pickPreferred] at h
  | cons b rest =>
      obtain ⟨q, heq, hmem, hnwb, hall⟩ := foldl_preferStep_spec rest b
      have h0 : List.foldl preferStep (some b) rest = some r := h
      have h2 : some q = some r := heq ▸ h0
      injection h2 with h2
      subst h2
      refine ⟨?_, ?_⟩
      · rcases hmem with h3 | h3
        · exact h3 ▸ List.mem_cons_self b rest
        · exact List.mem_cons_of_mem b h3
      · intro x hx
        rcases List.mem_cons.mp hx with h3 | h3
        · exact h3 ▸ hnwb
        · exact hall x h3

theorem pickPreferred_ne_none {rows : List FrequencyRow} (h : rows ≠ []) :
    pickPreferred rows ≠ none := by
  cases rows with
  | nil => exact absurd rfl h
  | cons b rest =>
      obtain ⟨r, heq, _, _, _⟩ := foldl_preferStep_spec rest b
      show List.foldl preferStep (preferStep none b) rest ≠ none
      rw [show preferStep none b = some b from rfl, heq]
      simp

theorem pickWeighted_ne_none :
    ∀ (u : ℚ) (rows : List FrequencyRow), rows ≠ [] → pickWeighted u rows ≠ none
  | _, [], h => absurd rfl h
  | u, [r], _ => by simp [pickWeighted]
  | u, r :: r2 :: rest, _ => by
      show (if u < r.frequency then some r
            else pickWeighted (ratSub u r.frequency) (r2 :: rest)) ≠ none
      split
      · simp
      · exact pickWeighted_ne_none (ratSub u r.frequency) (r2 :: rest) (by simp)

theorem pickWeighted_mem :
    ∀ (u : ℚ) (rows : List FrequencyRow) (r : FrequencyRow),
      pickWeighted u rows = some r → r ∈ rows
  | _, [], r => by simp [pickWeighted]
  | u, [x], r => by
      intro h
      simp [pickWeighted] at h
      simp [h]
  | u, x :: y :: rest, r => by
      show (if u < x.frequency then some x
            else pickWeighted (ratSub u x.frequency) (y :: rest)) = some r → _
      split
      · intro h
        injection h with h
        exact h ▸ List.mem_cons_self x (y :: rest)
      · intro h
        exact List.mem_cons_of_mem x
          (pickWeighted_mem (ratSub u x.frequency) (y :: rest) r h)

theorem synthGoPreferred_error (t : List FrequencyRow) :
    ∀ (l : List Char) (i k : ℕ), i < l.length →
      rowsFor t (l.getD i ' ') = [] →
      (∀ j, j < i → rowsFor t (l.getD j ' ') ≠ []) →
      synthGoPreferred t l k =
        .error (.missingAminoAcidFrequency (l.getD i ' ') (k + i))
  | [], i, k => by
      intro h
      exact absurd h (by simp)
  | a :: rest, 0, k => by
      intro _ hmiss _
      rw [List.getD_cons_zero] at hmiss ⊢
      show (match pickPreferred (rowsFor t a) with
            | none => Except.error (.missingAminoAcidFrequency a k)
            | some r => (synthGoPreferred t rest (k + 1)).map (fun s => r.codon ++ s)) =
          Except.error (.missingAminoAcidFrequency a (k + 0))
      rw [hmiss]
      rfl
  | a :: rest, i + 1, k => by
      intro hi hmiss hfirst
      have ha : rowsFor t a ≠ [] := by
        have := hfirst 0 (Nat.succ_pos i)
        rwa [List.getD_cons_zero] at this
      obtain ⟨r, hr⟩ := Option.ne_none_iff_exists'.mp (pickPreferred_ne_none ha)
      have ih := synthGoPreferred_error t rest i (k + 1)
        (by simpa using hi)
        (by rwa [List.getD_cons_succ] at hmiss)
        (fun j hj => by
          have := hfirst (j + 1) (by omega)
          rwa [List.getD_cons_succ] at this)
      show (match pickPreferred (rowsFor t a) with
            | none => Except.error (.missingAminoAcidFrequency a k)
            | some r => (synthGoPreferred t rest (k + 1)).map (fun s => r.codon ++ s)) =
          Except.error (SynthError.missingAminoAcidFrequency
            ((a :: rest).getD (i + 1) ' ') (k + (i + 1)))
      rw [hr, ih, List.getD_cons_succ]
      show Except.error _ = Except.error _
      rw [show k + 1 + i = k + (i + 1) from by omega]

theorem synthGoWeighted_error (t : List FrequencyRow) :
    ∀ (l : List Char) (i k g : ℕ), i < l.length →
      rowsFor t (l.getD i ' ') = [] →
      (∀ j, j < i → rowsFor t (l.getD j ' ') ≠ []) →
      synthGoWeighted t l k g =
        .error (.missingAminoAcidFrequency (l.getD i ' ') (k + i))
  | [], i, k, g => by
      intro h
      exact absurd h (by simp)
  | a :: rest, 0, k, g => by
      intro _ hmiss _
      rw [List.getD_cons_zero] at hmiss ⊢
      show (match pickWeighted (rngNext g).1 (rowsFor t a) with
            | none => Except.error (.missingAminoAcidFrequency a k)
            | some r => (synthGoWeighted t rest (k + 1) (rngNext g).2).map
                (fun sg => (r.codon ++ sg.1, sg.2))) =
          Except.error (.missingAminoAcidFrequency a (k + 0))
      rw [hmiss]
      rfl
  | a :: rest, i + 1, k, g => by
      intro hi hmiss hfirst
      have ha : rowsFor t a ≠ [] := by
        have := hfirst 0 (Nat.succ_pos i)
        rwa [List.getD_cons_zero] at this
      obtain ⟨r, hr⟩ := Option.ne_none_iff_exists'.mp
        (pickWeighted_ne_none (rngNext g).1 (rowsFor t a) ha)
      have ih := synthGoWeighted_error t rest i (k + 1) (rngNext g).2
        (by simpa using hi)
        (by rwa [List.getD_cons_succ] at hmiss)
        (fun j hj => by
          have := hfirst (j + 1) (by omega)
          rwa [List.getD_cons_succ] at this)
      show (match pickWeighted (rngNext g).1 (rowsFor t a) with
            | none => Except.error (.missingAminoAcidFrequency a k)
            | some r => (synthGoWeighted t rest (k + 1) (rngNext g).2).map
                (fun sg => (r.codon ++ sg.1, sg.2))) =
          Except.error (SynthError.missingAminoAcidFrequency
            ((a :: rest).getD (i + 1) ' ') (k + (i + 1)))
      rw [hr, ih, List.getD_cons_succ]
      show Except.error _ = Except.error _
      rw [show k + 1 + i = k + (i + 1) from by omega]

theorem variantsGo_error (protein : String) (t : List FrequencyRow) (E : SynthError)
    (h : ∀ g, protein_to_dna_weighted protein t g = .error E) :
    ∀ (n g : ℕ), 0 < n → variantsGo protein t n g = .error E := by
  intro n g hn
  cases n with
  | zero => exact absurd hn (by omega)
  | succ m =>
      simp only [variantsGo]
      rw [h g]

/-- C2: if some symbol of the protein has no rows in the frequency table,
then all three synthesis entry points fail with `MissingAminoAcidFrequency`
naming the (first such) offending symbol and its position — no uniform
fallback, no skipped residue.  `i` is the first offending position. -/
theorem claim_C2_missing_amino_acid_error (protein : String)
    (table : List FrequencyRow) (i : ℕ) (hi : i < protein.length)
    (hmiss : rowsFor table (protein.data.getD i ' ') = [])
    (hfirst : ∀ j, j < i → rowsFor table (protein.data.getD j ' ') ≠ []) :
    protein_to_dna_preferred protein table =
      .error (.missingAminoAcidFrequency (protein.data.getD i ' ') i) ∧
    (∀ g, protein_to_dna_weighted protein table g =
      .error (.missingAminoAcidFrequency (protein.data.getD i ' ') i)) ∧
    (∀ g n, 0 < n → generate_multiple_variants protein table n g =
      .error (.missingAminoAcidFrequency (protein.data.getD i ' ') i)) := by
  have hi2 : i < protein.data.length := hi
  constructor
  · have := synthGoPreferred_error table protein.data i 0 hi2 hmiss hfirst
    simpa using this
  constructor
  · intro g
    have := synthGoWeighted_error table protein.data i 0 g hi2 hmiss hfirst
    simpa using this
  · intro g n hn
    apply variantsGo_error
    · intro g2
      have := synthGoWeighted_error table protein.data i 0 g2 hi2 hmiss hfirst
      simpa using this
    · exact hn

theorem claim_C2_missing_amino_acid_error_witness :
    protein_to_dna_preferred "MX" sampleTable =
      .error (.missingAminoAcidFrequency 'X' 1) ∧
    protein_to_dna_weighted "MX" sampleTable 5 =
      .error (.missingAminoAcidFrequency 'X' 1) ∧
    generate_multiple_variants "MX" sampleTable 2 5 =
      .error (.missingAminoAcidFrequency 'X' 1) :=
  ⟨(claim_C2_missing_amino_acid_error "MX" sampleTable 1 (by decide) (by decide)
      (by decide)).1,
   (claim_C2_missing_amino_acid_error "MX" sampleTable 1 (by decide) (by decide)
      (by decide)).2.1 5,
   (claim_C2_missing_amino_acid_error "MX" sampleTable 1 (by decide) (by decide)
      (by decide)).2.2 5 2 (by decide)⟩

theorem exceptMap_eq_ok {ε α β : Type} {f : α → β} {e : Except ε α} {b : β}
    (h : e.map f = .ok b) : ∃ a, e = .ok a ∧ b = f a := by
  cases e with
  | error e2 => exact Except.noConfusion h
  | ok a =>
      refine ⟨a, rfl, ?_⟩
      have h2 : Except.ok (ε := ε) (f a) = .ok b := h
      injection h2 with h2
      exact h2.symm

/-- C6: preferred synthesis is deterministic — equal inputs give equal
output — and for each amino-acid symbol the selected row is one of that
amino acid's rows, has maximal frequency among them, and on frequency ties
carries the lexicographically smallest codon. -/
theorem claim_C6_preferred_argmax (protein : String) (table : List FrequencyRow) :
    protein_to_dna_preferred protein table = protein_to_dna_preferred protein table ∧
    ∀ a r, pickPreferred (rowsFor table a) = some r →
      r ∈ rowsFor table a ∧ ∀ x ∈ rowsFor table a,
        x.frequency ≤ r.frequency ∧
          (x.frequency = r.frequency → r.codon.data ≤ x.codon.data) := by
  refine ⟨rfl, fun a r h => ?_⟩
  obtain ⟨hmem, hall⟩ := pickPreferred_spec h
  exact ⟨hmem, fun x hx => hall x hx⟩

theorem claim_C6_preferred_argmax_witness :
    (⟨'A', "GCC", 1, mkRat 1 2⟩ : FrequencyRow) ∈ rowsFor sampleTable 'A' ∧
    ∀ x ∈ rowsFor sampleTable 'A',
      x.frequency ≤ (⟨'A', "GCC", 1, mkRat 1 2⟩ : FrequencyRow).frequency ∧
        (x.frequency = (⟨'A', "GCC", 1, mkRat 1 2⟩ : FrequencyRow).frequency →
          (⟨'A', "GCC", 1, mkRat 1 2⟩ : FrequencyRow).codon.data ≤ x.codon.data) :=
  (claim_C6_preferred_argmax "MA" sampleTable).2 'A' ⟨'A', "GCC", 1, mkRat 1 2⟩
    (by decide)

theorem synthGoPreferred_length (t : List FrequencyRow)
    (h3 : ∀ r ∈ t, r.codon.length = 3) :
    ∀ (l : List Char) (k : ℕ) (s : String),
      synthGoPreferred t l k = .ok s → s.length = 3 * l.length
  | [], k, s => by
      intro h
      injection h with h
      subst h
      rfl
  | a :: rest, k, s => by
      intro h
      simp only [synthGoPreferred] at h
      cases hp : pickPreferred (rowsFor t a) with
      | none => rw [hp] at h; exact Except.noConfusion h
      | some r =>
          rw [hp] at h
          obtain ⟨s2, hs2, hfs⟩ := exceptMap_eq_ok h
          subst hfs
          have hlen := synthGoPreferred_length t h3 rest (k + 1) s2 hs2
          have hrt : r ∈ t := List.mem_of_mem_filter (pickPreferred_spec hp).1
          show (r.codon ++ s2).length = 3 * (rest.length + 1)
          rw [String.length_append, h3 r hrt, hlen]
          ring

theorem synthGoWeighted_length (t : List FrequencyRow)
    (h3 : ∀ r ∈ t, r.codon.length = 3) :
    ∀ (l : List Char) (k g : ℕ) (sg : String × ℕ),
      synthGoWeighted t l k g = .ok sg → sg.1.length = 3 * l.length
  | [], k, g, sg => by
      intro h
      injection h with h
      subst h
      rfl
  | a :: rest, k, g, sg => by
      intro h
      simp only [synthGoWeighted] at h
      cases hp : pickWeighted (rngNext g).1 (rowsFor t a) with
      | none => rw [hp] at h; exact Except.noConfusion h
      | some r =>
          rw [hp] at h
          obtain ⟨p, hp2, hfp⟩ := exceptMap_eq_ok h
          subst hfp
          have hlen := synthGoWeighted_length t h3 rest (k + 1) (rngNext g).2 p hp2
          have hrt : r ∈ t := List.mem_of_mem_filter
            (pickWeighted_mem (rngNext g).1 (rowsFor t a) r hp)
          show (r.codon ++ p.1).length = 3 * (rest.length + 1)
          rw [String.length_append, h3 r hrt, hlen]
          ring

theorem variantsGo_length (protein : String) (t : List FrequencyRow)
    (h3 : ∀ r ∈ t, r.codon.length = 3) :
    ∀ (n g : ℕ) (vs : List String),
      variantsGo protein t n g = .ok vs →
        ∀ v ∈ vs, v.length = 3 * protein.length
  | 0, g, vs => by
      intro h
      injection h with h
      subst h
      intro v hv
      exact absurd hv (by simp)
  | n + 1, g, vs => by
      intro h
      simp only [variantsGo] at h
      cases hw : protein_to_dna_weighted protein t g with
      | error e => rw [hw] at h; exact Except.noConfusion h
      | ok sg =>
          rw [hw] at h
          obtain ⟨vs2, hvs2, hfv⟩ := exceptMap_eq_ok h
          subst hfv
          intro v hv
          rcases List.mem_cons.mp hv with h1 | h1
          · subst h1
            exact synthGoWeighted_length t h3 protein.data 0 g sg hw
          · exact variantsGo_length protein t h3 n sg.2 vs2 hvs2 v h1

/-- C8: whenever synthesis succeeds, every DNA string produced by any of the
three entry points has length exactly three times the protein length (the
table's codons being 3-letter strings, the `FrequencyRow` well-formedness of
§3). -/
theorem claim_C8_output_length (protein : String) (table : List FrequencyRow)
    (h3 : ∀ r ∈ table, r.codon.length = 3) :
    (∀ s, protein_to_dna_preferred protein table = .ok s →
      s.length = 3 * protein.length) ∧
    (∀ g sg, protein_to_dna_weighted protein table g = .ok sg →
      sg.1.length = 3 * protein.length) ∧
    (∀ n g vs, generate_multiple_variants protein table n g = .ok vs →
      ∀ v ∈ vs, v.length = 3 * protein.length) :=
  ⟨fun s h => synthGoPreferred_length table h3 protein.data 0 s h,
   fun g sg h => synthGoWeighted_length table h3 protein.data 0 g sg h,
   fun n g vs h => variantsGo_length protein table h3 n g vs h⟩

theorem claim_C8_output_length_witness :
    ("ATGGCC" : String).length = 3 * ("MA" : String).length :=
  (claim_C8_output_length "MA" sampleTable (by decide)).1 "ATGGCC" rfl

/-- C1: the claim says the randomness source is threaded explicitly as a
parameter into each synthesis call of `main`, making equal seeds reproduce
equal weighted output.  `main.py` (lines 124–133) in fact calls
`protein_to_dna_weighted(protein, table)` and
`generate_multiple_variants(protein, table, n)` with no randomness argument
at all, so the draws consume the ambient global random state: the weighted
output of the `generate` command depends on that ambient state (made explicit
here as the final argument of `mainGenerate`), which no seed parameter of the
call fixes.  Evidence: two different ambient states give two different
outputs for the same protein, table and variant count. -/
theorem claim_C1_weighted_depends_on_ambient_state :
    mainGenerate "AAAAA" sampleTable .weighted 1 0 = .ok ["GCCGCTGCCGCTGCC"] ∧
    mainGenerate "AAAAA" sampleTable .weighted 1 1 = .ok ["GCTGCCGCCGCTGCT"] ∧
    ("GCCGCTGCCGCTGCC" : String) ≠ "GCTGCCGCCGCTGCT" :=
  ⟨rfl, rfl, by decide⟩

/-- C5: persisting an analyzed frequency table and loading it back yields a
table on which the preferred synthesis gives exactly the result it gives on
the in-memory table that was persisted. -/
theorem claim_C5_persist_load_roundtrip (cnt : String → ℕ) (aa : Char → ℕ)
    (protein : String) :
    protein_to_dna_preferred protein
        (loadTable (persistTable (analyze_codon_counts cnt aa))) =
      protein_to_dna_preferred protein (analyze_codon_counts cnt aa) := by
  rw [loadTable_persistTable]

/-- C7: on the single input sequence `"ATGGCTATGGCCATG"` the counting pass
returns codon counts ATG=3, GCT=1, GCC=1 (all other codons 0) and amino-acid
counts Methionine `'M'` = 3 and Alanine `'A'` = 2, and the analyzed frequency
table carries frequency 1 for ATG and 1/2 for each of GCT and GCC. -/
theorem claim_C7_concrete_scenario :
    (count_codons ["ATGGCTATGGCCATG"]).1 "ATG" = 3 ∧
    (count_codons ["ATGGCTATGGCCATG"]).1 "GCT" = 1 ∧
    (count_codons ["ATGGCTATGGCCATG"]).1 "GCC" = 1 ∧
    (∀ c ∈ sortedCodons, c ≠ "ATG" → c ≠ "GCT" → c ≠ "GCC" →
        (count_codons ["ATGGCTATGGCCATG"]).1 c = 0) ∧
    (count_codons ["ATGGCTATGGCCATG"]).2 'M' = 3 ∧
    (count_codons ["ATGGCTATGGCCATG"]).2 'A' = 2 ∧
    analyze_codon_counts (count_codons ["ATGGCTATGGCCATG"]).1
        (count_codons ["ATGGCTATGGCCATG"]).2 = sampleTable ∧
    (sampleTable.map FrequencyRow.frequency) = [mkRat 1 2, mkRat 1 2, 1] := by
  decide

/-- C9: with `--method preferred` the `generate` branch of `main` produces
exactly one DNA sequence, obtained from `protein_to_dna_preferred`, for every
value of `num_variants` (and independently of the ambient random state). -/
theorem claim_C9_preferred_ignores_num_variants (protein : String)
    (table : List FrequencyRow) (numVariants : ℤ) (g : ℕ) :
    mainGenerate protein table .preferred numVariants g =
      (protein_to_dna_preferred protein table).map (fun s => [s]) ∧
    ∀ vs, mainGenerate protein table .preferred numVariants g = .ok vs →
      vs.length = 1 := by
  refine ⟨rfl, ?_⟩
  intro vs h
  unfold mainGenerate at h
  cases hp : protein_to_dna_preferred protein table with
  | error e => rw [hp] at h; simp [Except.map] at h
  | ok s => rw [hp] at h; simp [Except.map] at h; subst h; rfl

theorem claim_C9_preferred_ignores_num_variants_witness :
    (["ATGGCC"] : List String).length = 1 :=
  (claim_C9_preferred_ignores_num_variants "MA" sampleTable 7 0).2 ["ATGGCC"] rfl

/-- C10: in the `generate` branch of `main` with `--method weighted`, a
`num_variants` value of at most 1 (including 0 and negative values) performs
a single weighted synthesis returning exactly one sequence, and
`generate_multiple_variants` is reached exactly when `num_variants > 1`. -/
theorem claim_C10_weighted_variant_dispatch (protein : String)
    (table : List FrequencyRow) (numVariants : ℤ) (g : ℕ) :
    (numVariants ≤ 1 →
      mainGenerate protein table .weighted numVariants g =
        (protein_to_dna_weighted protein table g).map (fun sg => [sg.1])) ∧
    (1 < numVariants →
      mainGenerate protein table .weighted numVariants g =
        generate_multiple_variants protein table numVariants.toNat g) := by
  constructor
  · intro h
    show (if numVariants > 1 then _ else _) = _
    rw [if_neg (by omega)]
  · intro h
    show (if numVariants > 1 then _ else _) = _
    rw [if_pos (by omega)]

theorem claim_C10_weighted_variant_dispatch_witness :
    mainGenerate "A" sampleTable .weighted 0 5 =
      (protein_to_dna_weighted "A" sampleTable 5).map (fun sg => [sg.1]) :=
  (claim_C10_weighted_variant_dispatch "A" sampleTable 0 5).1 (by decide)

theorem chunks3_count (c : String) :
    ∀ l : List Char,
      (chunks3 l).count c =
        ((List.range (l.length / 3)).filter
          (fun i => decide ((l.drop (3 * i)).take 3 = c.data))).length
  | [] => by simp [chunks3]
  | [x] => by simp [chunks3]
  | [x, y] => by simp [chunks3]
  | x :: y :: z :: rest => by
      have ih := chunks3_count c rest
      have hdiv : (x :: y :: z :: rest).length / 3 = rest.length / 3 + 1 := by
        simp only [List.length_cons]
        omega
      have hdrop : ∀ i : ℕ,
          (x :: y :: z :: rest).drop (3 * (i + 1)) = rest.drop (3 * i) := by
        intro i
        have h3 : 3 * (i + 1) = 3 * i + 1 + 1 + 1 := by ring
        rw [h3, List.drop_succ_cons, List.drop_succ_cons, List.drop_succ_cons]
      have hcons : chunks3 (x :: y :: z :: rest) = String.mk [x, y, z] :: chunks3 rest := rfl
      rw [hcons, List.count_cons, hdiv, List.range_succ_eq_map, List.filter_cons]
      have hfilter :
          ((List.range (rest.length / 3)).map Nat.succ).filter
              (fun i => decide (((x :: y :: z :: rest).drop (3 * i)).take 3 = c.data)) =
            ((List.range (rest.length / 3)).filter
              (fun i => decide ((rest.drop (3 * i)).take 3 = c.data))).map Nat.succ := by
        rw [List.filter_map]
        apply congrArg
        apply List.filter_congr
        intro i _
        simp only [Function.comp_apply, Nat.succ_eq_add_one, hdrop]
      rw [ih]
      by_cases h0 : [x, y, z] = c.data
      · have hb : (String.mk [x, y, z] == c) = true := by
          rw [beq_iff_eq]
          exact String.ext h0
        have hP0 : decide (((x :: y :: z :: rest).drop (3 * 0)).take 3 = c.data) = true :=
          decide_eq_true h0
        rw [if_pos hb, if_pos hP0]
        simp [hfilter, List.length_map]
      · have hb : (String.mk [x, y, z] == c) = false := by
          rw [beq_eq_false_iff_ne]
          intro hc
          exact h0 (congrArg String.data hc)
        have hP0 : decide (((x :: y :: z :: rest).drop (3 * 0)).take 3 = c.data) = false :=
          decide_eq_false h0
        rw [if_neg (by rw [hb]; exact Bool.false_ne_true),
            if_neg (by rw [hP0]; exact Bool.false_ne_true)]
        simp [hfilter, List.length_map]


theorem lookup_isSome_mem :
    ∀ (l : List (String × Char)) (c : String),
      (l.lookup c).isSome → c ∈ l.map Prod.fst
  | [], c => by simp [List.lookup]
  | (k, v) :: rest, c => by
      intro hsome
      simp only [List.map_cons]
      cases hck : c == k with
      | true => exact (beq_iff_eq.mp hck) ▸ List.mem_cons_self _ _
      | false =>
          apply List.mem_cons_of_mem
          apply lookup_isSome_mem rest c
          simpa [List.lookup, hck] using hsome

theorem translate_isSome_mem {c : String} (h : (translate c).isSome) :
    c ∈ sortedCodons :=
  lookup_isSome_mem geneticCodeTable c h

theorem sortedCodons_nodup : sortedCodons.Nodup := by decide

theorem sum_map_zero_nat : ∀ V : List String, (V.map (fun _ => (0 : ℕ))).sum = 0
  | [] => rfl
  | v :: V => by simp [sum_map_zero_nat V]

theorem sum_map_add_nat (f g : String → ℕ) :
    ∀ V : List String,
      (V.map (fun c => f c + g c)).sum = (V.map f).sum + (V.map g).sum
  | [] => rfl
  | v :: V => by
      simp only [List.map_cons, List.sum_cons, sum_map_add_nat f g V]
      omega

theorem sum_indicator (x : String) :
    ∀ V : List String, V.Nodup →
      (V.map (fun c => if x == c then 1 else 0)).sum = if x ∈ V then 1 else 0
  | [], _ => by simp
  | v :: V, h => by
      obtain ⟨hv, hV⟩ := List.nodup_cons.mp h
      simp only [List.map_cons, List.sum_cons, sum_indicator x V hV]
      by_cases hvx : x = v
      · subst hvx
        rw [if_pos (beq_iff_eq.mpr rfl), if_neg hv, if_pos (List.mem_cons_self x V)]
      · rw [if_neg (fun hb : (x == v) = true => hvx (beq_iff_eq.mp hb))]
        by_cases hxV : x ∈ V
        · rw [if_pos hxV, if_pos (List.mem_cons_of_mem v hxV)]
        · rw [if_neg hxV,
              if_neg (fun hm => hxV ((List.mem_cons.mp hm).resolve_left hvx))]

theorem length_filter_eq_sum_count (Q : String → Bool) (U : List String)
    (hU : U.Nodup) :
    ∀ L : List String, (∀ x ∈ L, Q x = true → x ∈ U) →
      (L.filter Q).length = ((U.filter Q).map (fun c => L.count c)).sum
  | [], _ => by simp [List.count_nil, sum_map_zero_nat]
  | x :: L, hsub => by
      have ih := length_filter_eq_sum_count Q U hU L
        (fun y hy hQ => hsub y (List.mem_cons_of_mem x hy) hQ)
      have hfun : (fun c => (x :: L).count c) =
          (fun c => L.count c + if x == c then 1 else 0) :=
        funext fun c => List.count_cons c x L
      rw [List.filter_cons, hfun,
          sum_map_add_nat (fun c => L.count c) (fun c => if x == c then 1 else 0)
            (U.filter Q),
          sum_indicator x (U.filter Q) (hU.filter Q), ← ih]
      by_cases hQx : Q x = true
      · have hxU : x ∈ U.filter Q :=
          List.mem_filter.mpr ⟨hsub x (List.mem_cons_self x L) hQx, hQx⟩
        rw [if_pos hQx, if_pos hxU, List.length_cons]
      · rw [if_neg hQx, if_neg (fun hm => hQx (List.mem_filter.mp hm).2)]
        omega

theorem count_codonsOf (c : String) (hc : (translate c).isSome) :
    ∀ seqs : List String,
      (codonsOf seqs).count c =
        (seqs.map (fun s => (chunks3 s.data).count c)).sum
  | [] => rfl
  | s :: seqs => by
      show ((chunks3 s.data).filter (fun d => (translate d).isSome) ++
          codonsOf seqs).count c = _
      rw [List.count_append, List.count_filter (p := fun d => (translate d).isSome) hc, List.map_cons, List.sum_cons,
          count_codonsOf c hc seqs]

/-- C4: the counting pass truncates each sequence to whole codons, partitions
it into non-overlapping consecutive 3-base codons from offset 0 (the count of
a valid codon equals the number of offset positions whose 3-character slice
is that codon), derives the amino-acid counts as the sums of the counts of
the codons translating to each amino acid, never counts an invalid codon
(and never fails on one), and an empty input sequence contributes nothing. -/
theorem claim_C4_counting_pass (seqs : List String) :
    (∀ c : String, (translate c).isSome →
      (count_codons seqs).1 c =
        (seqs.map (fun s =>
          ((List.range (s.data.length / 3)).filter
            (fun i => decide ((s.data.drop (3 * i)).take 3 = c.data))).length)).sum) ∧
    (∀ a : Char, (count_codons seqs).2 a = derivedAA (count_codons seqs).1 a) ∧
    (∀ c : String, translate c = none → (count_codons seqs).1 c = 0) ∧
    count_codons ("" :: seqs) = count_codons seqs := by
  refine ⟨?_, ?_, ?_, ?_⟩
  · intro c hc
    show (codonsOf seqs).count c = _
    rw [count_codonsOf c hc seqs]
    have hfun : (fun s => (chunks3 s.data).count c) =
        (fun s : String =>
          ((List.range (s.data.length / 3)).filter
            (fun i => decide ((s.data.drop (3 * i)).take 3 = c.data))).length) :=
      funext fun s => chunks3_count c s.data
    rw [hfun]
  · intro a
    show ((codonsOf seqs).filter (fun c => translate c == some a)).length = _
    rw [length_filter_eq_sum_count (fun c => translate c == some a) sortedCodons
      sortedCodons_nodup (codonsOf seqs)
      (fun x _ hQ => translate_isSome_mem (by rw [beq_iff_eq.mp hQ]; rfl))]
    rfl
  · intro c hc
    show (codonsOf seqs).count c = 0
    rw [List.count_eq_zero]
    intro hmem
    obtain ⟨s, _, hcs⟩ := List.mem_flatMap.mp hmem
    have h2 := (List.mem_filter.mp hcs).2
    simp [hc] at h2
  · rfl

theorem claim_C4_counting_pass_witness :
    (count_codons ["ATGGC"]).1 "ATG" =
      ((["ATGGC"] : List String).map (fun s =>
        ((List.range (s.data.length / 3)).filter
          (fun i => decide ((s.data.drop (3 * i)).take 3 =
            ("ATG" : String).data))).length)).sum ∧
    (count_codons ["ATGNC"]).1 "ATN" = 0 :=
  ⟨(claim_C4_counting_pass ["ATGGC"]).1 "ATG" (by decide),
   (claim_C4_counting_pass ["ATGNC"]).2.2.1 "ATN" (by decide)⟩


theorem rowsFor_filterMap (cnt : String → ℕ) (aa : Char → ℕ) (a : Char) :
    ∀ l : List String,
      rowsFor (l.filterMap (rowOf cnt aa)) a =
        (l.filter (fun c => translate c == some a && decide (cnt c ≠ 0))).map
          (fun c => ⟨a, c, cnt c, mkRat (cnt c) (aa a)⟩)
  | [] => rfl
  | c :: l => by
      have ih := rowsFor_filterMap cnt aa a l
      cases ht : translate c with
      | none =>
          have h1 : rowOf cnt aa c = none := by simp [rowOf, ht]
          have h2 : (translate c == some a && decide (cnt c ≠ 0)) = false := by
            simp [ht]
          rw [List.filterMap_cons_none h1, List.filter_cons,
              if_neg (by rw [h2]; exact Bool.false_ne_true)]
          exact ih
      | some b =>
          by_cases hcnt : cnt c = 0
          · have h1 : rowOf cnt aa c = none := by simp [rowOf, ht, hcnt]
            have h2 : (translate c == some a && decide (cnt c ≠ 0)) = false := by
              simp [hcnt]
            rw [List.filterMap_cons_none h1, List.filter_cons,
                if_neg (by rw [h2]; exact Bool.false_ne_true)]
            exact ih
          · have h1 : rowOf cnt aa c =
                some ⟨b, c, cnt c, mkRat (cnt c) (aa b)⟩ := by
              simp [rowOf, ht, hcnt]
            rw [List.filterMap_cons_some h1]
            by_cases hba : b = a
            · subst hba
              have h2 : (translate c == some b && decide (cnt c ≠ 0)) = true := by
                simp [ht, hcnt]
              show rowsFor (⟨b, c, cnt c, mkRat (cnt c) (aa b)⟩ ::
                  l.filterMap (rowOf cnt aa)) b = _
              rw [show rowsFor (⟨b, c, cnt c, mkRat (cnt c) (aa b)⟩ ::
                    l.filterMap (rowOf cnt aa)) b =
                  (⟨b, c, cnt c, mkRat (cnt c) (aa b)⟩ : FrequencyRow) ::
                    rowsFor (l.filterMap (rowOf cnt aa)) b from by
                show List.filter _ _ = _
                rw [List.filter_cons, if_pos (by simp)]
                rfl]
              rw [List.filter_cons, if_pos h2, List.map_cons, ih]
            · have h2 : ((⟨b, c, cnt c, mkRat (cnt c) (aa b)⟩ :
                  FrequencyRow).amino_acid == a) = false := by
                simpa using hba
              have h3 : (translate c == some a && decide (cnt c ≠ 0)) = false := by
                simp [ht]
                intro hcontra
                exact absurd hcontra hba
              show rowsFor (⟨b, c, cnt c, mkRat (cnt c) (aa b)⟩ ::
                  l.filterMap (rowOf cnt aa)) a = _
              rw [show rowsFor (⟨b, c, cnt c, mkRat (cnt c) (aa b)⟩ ::
                    l.filterMap (rowOf cnt aa)) a =
                  rowsFor (l.filterMap (rowOf cnt aa)) a from by
                show List.filter _ _ = _
                rw [List.filter_cons, if_neg (by rw [h2]; exact Bool.false_ne_true)]
                rfl]
              rw [List.filter_cons, if_neg (by rw [h3]; exact Bool.false_ne_true), ih]

theorem sum_map_div (T : ℚ) (f : String → ℕ) :
    ∀ V : List String,
      (V.map (fun c => (f c : ℚ) / T)).sum = ((V.map f).sum : ℚ) / T
  | [] => by simp
  | v :: V => by
      simp only [List.map_cons, List.sum_cons, sum_map_div T f V]
      push_cast
      rw [div_add_div_same]

theorem sum_cnt_filter (cnt : String → ℕ) (a : Char) :
    ∀ l : List String,
      ((l.filter (fun c => translate c == some a && decide (cnt c ≠ 0))).map
        cnt).sum =
        ((l.filter (fun c => translate c == some a)).map cnt).sum
  | [] => rfl
  | c :: l => by
      have ih := sum_cnt_filter cnt a l
      by_cases h1 : (translate c == some a) = true
      · by_cases h2 : cnt c = 0
        · rw [List.filter_cons, List.filter_cons,
              if_neg (show ¬((translate c == some a && decide (cnt c ≠ 0)) = true)
                from by simp [h2]),
              if_pos h1, List.map_cons, List.sum_cons, ih, h2]
          omega
        · rw [List.filter_cons, List.filter_cons,
              if_pos (show (translate c == some a && decide (cnt c ≠ 0)) = true
                from by simp [h1, h2]),
              if_pos h1, List.map_cons, List.map_cons, List.sum_cons,
              List.sum_cons, ih]
      · rw [List.filter_cons, List.filter_cons,
            if_neg (show ¬((translate c == some a && decide (cnt c ≠ 0)) = true)
              from by simp [h1]),
            if_neg h1]
        exact ih

theorem cnt_le_derived (cnt : String → ℕ) (a : Char) {c : String}
    (hc : c ∈ sortedCodons.filter
      (fun d => translate d == some a && decide (cnt d ≠ 0))) :
    cnt c ≠ 0 ∧ cnt c ≤ derivedAA cnt a := by
  have hm := List.mem_filter.mp hc
  have hpred := hm.2
  rw [Bool.and_eq_true] at hpred
  refine ⟨of_decide_eq_true hpred.2, ?_⟩
  have hc2 : c ∈ sortedCodons.filter (fun d => translate d == some a) :=
    List.mem_filter.mpr ⟨hm.1, hpred.1⟩
  exact List.single_le_sum (fun x _ => Nat.zero_le x) (cnt c)
    (List.mem_map_of_mem cnt hc2)

/-- C3: for every frequency table produced by the analyzer from a codon count
and the amino-acid count derived from it (spec §3: `AminoAcidCount` is the sum
of the counts of the codons mapping to the amino acid), and every amino acid
present in the table: the amino acid's row frequencies sum to 1 up to the
1e-6 tolerance (here they sum to exactly 1), every frequency lies in (0, 1],
and every count of the table is non-negative. -/
theorem claim_C3_frequency_invariants (cnt : String → ℕ) (aa : Char → ℕ)
    (a : Char) (haa : aa a = derivedAA cnt a) :
    (rowsFor (analyze_codon_counts cnt aa) a ≠ [] →
      |((rowsFor (analyze_codon_counts cnt aa) a).map
          FrequencyRow.frequency).sum - 1| ≤ mkRat 1 1000000) ∧
    (∀ r ∈ rowsFor (analyze_codon_counts cnt aa) a,
      0 < r.frequency ∧ r.frequency ≤ 1) ∧
    (∀ r ∈ analyze_codon_counts cnt aa, 0 ≤ (r.count : ℤ)) := by
  have hrows := rowsFor_filterMap cnt aa a sortedCodons
  have hana : rowsFor (analyze_codon_counts cnt aa) a =
      (sortedCodons.filter
        (fun c => translate c == some a && decide (cnt c ≠ 0))).map
        (fun c => ⟨a, c, cnt c, mkRat (cnt c) (aa a)⟩) := hrows
  refine ⟨?_, ?_, ?_⟩
  · intro hne
    rw [hana] at hne ⊢
    have hFne : sortedCodons.filter
        (fun c => translate c == some a && decide (cnt c ≠ 0)) ≠ [] := by
      intro hF
      rw [hF] at hne
      exact hne rfl
    obtain ⟨c0, hc0⟩ := List.exists_mem_of_ne_nil _ hFne
    have hle := cnt_le_derived cnt a hc0
    have hpos : 0 < derivedAA cnt a := by omega
    have hsum1 : ((sortedCodons.filter
        (fun c => translate c == some a && decide (cnt c ≠ 0))).map
          (fun c => (⟨a, c, cnt c, mkRat (cnt c) (aa a)⟩ :
            FrequencyRow))).map FrequencyRow.frequency =
        (sortedCodons.filter
          (fun c => translate c == some a && decide (cnt c ≠ 0))).map
          (fun c => (cnt c : ℚ) / (aa a : ℚ)) := by
      rw [List.map_map]
      apply List.map_congr_left
      intro c _
      show mkRat (cnt c) (aa a) = _
      rw [Rat.mkRat_eq_div]
      push_cast
      ring
    rw [hsum1, sum_map_div ((aa a : ℚ)) cnt _, sum_cnt_filter cnt a sortedCodons]
    have hnum : ((sortedCodons.filter
        (fun c => translate c == some a)).map cnt).sum = aa a := haa.symm
    rw [hnum]
    have hQpos : (0 : ℚ) < (aa a : ℚ) := by
      rw [haa]
      exact_mod_cast hpos
    rw [div_self (ne_of_gt hQpos)]
    rw [Rat.mkRat_eq_div]
    norm_num
  · intro r hr
    rw [hana] at hr
    obtain ⟨c, hcF, hrc⟩ := List.mem_map.mp hr
    have hle := cnt_le_derived cnt a hcF
    have hpos : 0 < derivedAA cnt a := by omega
    have hQpos : (0 : ℚ) < (aa a : ℚ) := by
      rw [haa]
      exact_mod_cast hpos
    have hfr : r.frequency = (cnt c : ℚ) / (aa a : ℚ) := by
      rw [← hrc]
      show mkRat (cnt c) (aa a) = _
      rw [Rat.mkRat_eq_div]
      push_cast
      ring
    constructor
    · rw [hfr]
      apply div_pos _ hQpos
      exact_mod_cast Nat.pos_of_ne_zero hle.1
    · rw [hfr, div_le_one hQpos]
      rw [haa]
      exact_mod_cast hle.2
  · intro r _
    exact Int.natCast_nonneg r.count

theorem claim_C3_frequency_invariants_witness :
    |((rowsFor (analyze_codon_counts (count_codons ["ATGGCTATGGCCATG"]).1
        (count_codons ["ATGGCTATGGCCATG"]).2) 'A').map
          FrequencyRow.frequency).sum - 1| ≤ mkRat 1 1000000 :=
  (claim_C3_frequency_invariants (count_codons ["ATGGCTATGGCCATG"]).1
      (count_codons ["ATGGCTATGGCCATG"]).2 'A' (by decide)).1 (by decide)

end CodonOpt
